import Mathlib

/-!
Shallow embedding of the core of `BenaPRO.py` (ZIP ingestion, media-catalog
construction, and the evaluation-ledger persistence model) together with
proofs about it.  Python strings are modelled as `List Char` (code-point
sequences, ASCII case folding); Python dicts as insertion-ordered association
lists; Python lists as Lean lists.
-/

/-- Python strings, modelled as their sequence of code points. -/
abbrev Str := List Char

/-- Model of Python string comparison `a < b`: lexicographic by code point,
a strict prefix is smaller. -/
def strLt : Str → Str → Bool
  | [], [] => false
  | [], _ :: _ => true
  | _ :: _, [] => false
  | a :: as, b :: bs => if a < b then true else if b < a then false else strLt as bs

/-- Python `a <= b` on strings. -/
def strLe (a b : Str) : Bool := strLt a b || decide (a = b)

/-- One stored error of an evaluation record: the JSON object
`\x7b"nome", "descricao", "avaliacao", "timestamp"\x7d` written by
`salvar_anotacao`. -/
structure Erro where
  nome : Str
  descricao : Str
  avaliacao : Nat
  timestamp : Str
deriving DecidableEq, Repr

/-- One `EvaluationRecord` of the ledger: the JSON object
`\x7b"arquivo", "data", "id", "dedo", "erros"\x7d`. -/
structure Entrada where
  arquivo : Str
  data : Str
  id : Str
  dedo : Str
  erros : List Erro
deriving DecidableEq, Repr

/-- The ledger `resultado.json`: a Python dict from archive name to record
list, modelled as an insertion-ordered association list. -/
abbrev Ledger := List (Str × List Entrada)

/-- One invocation of `salvar_anotacao`, with the data it reads from the
current media item and UI state: the archive name, the file name saved
under (`arquivo_para_salvar`), the item metadata, and the `novo_erro`
objects built from `erros_atuais` (their timestamps are whatever
`get_current_timestamp` returned at that moment). -/
structure SaveOp where
  zipName : Str
  arquivo : Str
  data : Str
  id : Str
  dedo : Str
  erros : List Erro
deriving DecidableEq, Repr

/-- The duplicate test of `salvar_anotacao`:
`any(e['nome'] == novo['nome'] and e['descricao'] == novo['descricao'] for e in erros)`. -/
def erroDuplicado (es : List Erro) (novo : Erro) : Bool :=
  es.any fun e => decide (e.nome = novo.nome ∧ e.descricao = novo.descricao)

/-- The merge loop of `salvar_anotacao`: append each new error to the
existing list unless its `(nome, descricao)` pair is already present
(the list grows as the loop runs). -/
def mergeErros (existing : List Erro) (novos : List Erro) : List Erro :=
  novos.foldl (fun acc novo => if erroDuplicado acc novo then acc else acc ++ [novo]) existing

/-- Replace the first element satisfying `p` by its image under `f`; the
value model of Python's scan-and-break followed by in-place mutation. -/
def updateFirst (p : α → Bool) (f : α → α) : List α → List α
  | [] => []
  | x :: xs => if p x then f x :: xs else x :: updateFirst p f xs

/-- The per-archive part of `salvar_anotacao`: find the entry whose
`arquivo` equals the saved file name; if none exists append a fresh record,
otherwise merge the new errors into the existing record. -/
def upsertEntries (entries : List Entrada) (op : SaveOp) : List Entrada :=
  if entries.any (fun e => decide (e.arquivo = op.arquivo)) then
    updateFirst (fun e => decide (e.arquivo = op.arquivo))
      (fun e => ⟨e.arquivo, e.data, e.id, e.dedo, mergeErros e.erros op.erros⟩) entries
  else
    entries ++ [⟨op.arquivo, op.data, op.id, op.dedo, mergeErros [] op.erros⟩]

/-- Python `k in d` on the ledger dict. -/
def dictMember (d : Ledger) (k : Str) : Bool :=
  d.any fun kv => decide (kv.1 = k)

/-- Python `d.get(k, v₀)` / `d[k]` on the ledger dict. -/
def dictGetD (d : Ledger) (k : Str) (v₀ : List Entrada) : List Entrada :=
  match d.find? (fun kv => decide (kv.1 = k)) with
  | some kv => kv.2
  | none => v₀

/-- Python `d[k] = v`: overwrite the value at the first occurrence of `k`,
or append `(k, v)` at the end when `k` is absent. -/
def dictSet : Ledger → Str → List Entrada → Ledger
  | [], k, v => [(k, v)]
  | kv :: rest, k, v => if kv.1 = k then (k, v) :: rest else kv :: dictSet rest k v

/-- The ledger mutation performed by one successful `salvar_anotacao` run:
ensure the archive key exists, then upsert the record for the current file.
(The surrounding UI validation and the subsequent disk write are modelled
separately.) -/
def salvar_anotacao (d : Ledger) (op : SaveOp) : Ledger :=
  let d₁ := if dictMember d op.zipName then d else d ++ [(op.zipName, [])]
  let entries := dictGetD d₁ op.zipName []
  dictSet d₁ op.zipName (upsertEntries entries op)

/-- The record list stored for archive `k` (empty when `k` is absent). -/
def entriesOf (d : Ledger) (k : Str) : List Entrada := dictGetD d k []

/-- At most one record per file name within one archive's record list. -/
def NoDupArquivos (entries : List Entrada) : Prop :=
  entries.Pairwise fun a b => a.arquivo ≠ b.arquivo

/-- At most one record per `(archiveName, fileName)` pair in the ledger. -/
def LedgerInv (d : Ledger) : Prop := ∀ kv ∈ d, NoDupArquivos kv.2

/-- Whether some error in `es` has the `(nome, descricao)` pair of `n`. -/
def pairIn (n : Erro) (es : List Erro) : Prop :=
  ∃ e ∈ es, e.nome = n.nome ∧ e.descricao = n.descricao

/-- Python `name.split('_')` (and `str.split(sep)` generally): split on every
occurrence of the separator, keeping empty pieces. -/
def splitOnChar (sep : Char) : Str → List Str
  | [] => [[]]
  | c :: cs =>
    match splitOnChar sep cs with
    | [] => if c = sep then [[], []] else [[c]]
    | t :: ts => if c = sep then [] :: t :: ts else (c :: t) :: ts

/-- ASCII model of Python `str.lower()`. -/
def pyLower (s : Str) : Str := s.map Char.toLower

/-- The `finger_map` dict of `extract_dedo_info`. -/
def finger_map : List (Str × Str) :=
  [("dedao".data, "Dedão".data), ("indic".data, "Indicador".data),
   ("medio".data, "Médio".data), ("anel".data, "Anelar".data),
   ("mind".data, "Mindinho".data)]

/-- `part in finger_map` / `finger_map[part]`. -/
def fingerLookup (part : Str) : Option Str :=
  (finger_map.find? fun kv => decide (kv.1 = part)).map (·.2)

/-- The `side_map` dict of `extract_dedo_info`, applied to one character. -/
def side_map (c : Char) : Str :=
  if c = 'd' then "Direita".data else "Esquerda".data

/-- The body of the token loop of `extract_dedo_info`: one token updates the
`(found_finger, found_side)` accumulator (later tokens run later, so a later
match overwrites an earlier one). -/
def dedoStep (acc : Str × Str) (part : Str) : Str × Str :=
  let found_finger :=
    match fingerLookup part with
    | some v => v
    | none => acc.1
  let found_side :=
    if part = "d".data ∨ part = "e".data then
      side_map (part.headD ' ')
    else acc.2
  let found_side :=
    match part with
    | [c0, c1] =>
      if c0.isDigit ∧ (c1 = 'd' ∨ c1 = 'e') then side_map c1 else found_side
    | _ => found_side
  (found_finger, found_side)

/-- `ZipLoaderThread.extract_dedo_info`: scan the underscore-split tokens of
the lowercased extension-stripped file name, then compose
`"finger - side"`, or the finger alone, or `"Desconhecido"`. -/
def extract_dedo_info (filename : Str) : Str :=
  let parts := splitOnChar '_' (pyLower filename)
  let r := parts.foldl dedoStep ([], [])
  if r.1 ≠ [] ∧ r.2 ≠ [] then r.1 ++ " - ".data ++ r.2
  else if r.1 ≠ [] then r.1 else "Desconhecido".data

/-- The finger value a single token contributes in `extract_dedo_info`,
if any. -/
def fingerOfToken (part : Str) : Option Str := fingerLookup part

/-- The side value a single token contributes in `extract_dedo_info`, if
any: a bare `d`/`e`, or a two-character token digit-then-`d`/`e`. -/
def sideOfToken (part : Str) : Option Str :=
  if part = "d".data ∨ part = "e".data then some (side_map (part.headD ' '))
  else
    match part with
    | [c0, c1] =>
      if c0.isDigit ∧ (c1 = 'd' ∨ c1 = 'e') then some (side_map c1) else none
    | _ => none

/-- The value contributed by the last token (rightmost) on which `f` fires,
if any: the specification-level reading of a left-to-right scan without
early exit. -/
def lastHit (f : Str → Option Str) : List Str → Option Str
  | [] => none
  | p :: ps =>
    match lastHit f ps with
    | some v => some v
    | none => f p

/-- The last path component, `os.path.basename` for `/`-separated paths. -/
def basename (p : Str) : Str :=
  p.foldl (fun acc c => if c = '/' then [] else acc ++ [c]) []

/-- Whether the regex `(\d{4})[ _](\d{2})` matches at the start of `cs`
(ASCII `\d`); on success, the two groups. -/
def matchDateAt : Str → Option (Str × Str)
  | y1 :: y2 :: y3 :: y4 :: s :: m1 :: m2 :: _ =>
    if y1.isDigit ∧ y2.isDigit ∧ y3.isDigit ∧ y4.isDigit ∧
       (s = ' ' ∨ s = '_') ∧ m1.isDigit ∧ m2.isDigit
    then some ([y1, y2, y3, y4], [m1, m2]) else none
  | _ => none

/-- `re.search` for `(\d{4})[ _](\d{2})`: the match at the leftmost
position where one exists. -/
def searchDate : Str → Option (Str × Str)
  | [] => none
  | c :: cs =>
    match matchDateAt (c :: cs) with
    | some r => some r
    | none => searchDate cs

/-- Index (from the left) of the last `'.'` in a name, if any. -/
def lastDotIdx : Str → Option Nat
  | [] => none
  | c :: cs =>
    match lastDotIdx cs with
    | some i => some (i + 1)
    | none => if c = '.' then some 0 else none

/-- `os.path.splitext` on a bare file name (no path separators): the
extension starts at the last dot, provided some earlier character of the
name is not a dot (so dotfiles like `.gitignore` have no extension). -/
def splitextName (name : Str) : Str × Str :=
  match lastDotIdx name with
  | none => (name, [])
  | some i =>
    if (name.take i).any (fun c => decide (c ≠ '.')) then (name.take i, name.drop i)
    else (name, [])

/-- `self.valid_extensions` of `ZipLoaderThread`. -/
def valid_extensions : List Str :=
  [".jpg".data, ".jpeg".data, ".png".data, ".bmp".data,
   ".gif".data, ".webp".data, ".tif".data, ".tiff".data]

/-- The decimal value of a digit string, as Python `int` on the regex
group. -/
def digitsVal (ds : Str) : Nat :=
  ds.foldl (fun n c => n * 10 + (c.toNat - '0'.toNat)) 0

/-- Maximal digit run at the head of a string. -/
def takeDigits : Str → Str
  | [] => []
  | c :: cs => if c.isDigit then c :: takeDigits cs else []

/-- Whether `_frame_(\d+)` (case-insensitive) matches at the start of `cs`;
on success, the numeric value of the greedy digit group. -/
def matchFrameAt : Str → Option Nat
  | c0 :: c1 :: c2 :: c3 :: c4 :: c5 :: c6 :: rest =>
    if pyLower [c0, c1, c2, c3, c4, c5, c6] = "_frame_".data then
      match rest with
      | d :: _ => if d.isDigit then some (digitsVal (takeDigits rest)) else none
      | [] => none
    else none
  | _ => none

/-- `re.search` for `_frame_(\d+)` with `re.IGNORECASE`: the leftmost
match. -/
def searchFrame : Str → Option Nat
  | [] => none
  | c :: cs =>
    match matchFrameAt (c :: cs) with
    | some n => some n
    | none => searchFrame cs

/-- `ZipLoaderThread.extract_frame_info`: frame number from the file name,
`0` when absent. -/
def extract_frame_info (filename : Str) : Nat :=
  (searchFrame filename).getD 0

/-- One regular file enumerated by `os.walk(self.temp_dir)`: the directory
segments of its folder relative to the scratch directory, and its base
name.  (The `file_path.replace(self.temp_dir, '').strip(os.sep)` step of
the source is modelled by taking these relative segments as given.) -/
structure WalkFile where
  dirs : List Str
  file : Str
deriving DecidableEq, Repr

/-- The extension filter of `organize_files`:
`os.path.splitext(file)[1].lower() in self.valid_extensions`. -/
def keepFile (w : WalkFile) : Bool :=
  valid_extensions.any fun e => decide (e = pyLower (splitextName w.file).2)

/-- One catalog entry as built by `organize_files` (the `file_path` field
holds the path segments relative to the scratch directory). -/
structure MediaItem where
  file_path : List Str
  filename : Str
  nome_sem_ext : Str
  data : Str
  id : Str
  dedo : Str
  frame : Nat
deriving DecidableEq, Repr

/-- The dict `organize_files` appends for one kept file, given the
`(ano, mes)` pair parsed from the archive name. -/
def buildItem (ano mes : Str) (w : WalkFile) : MediaItem :=
  let path_parts := w.dirs ++ [w.file]
  let dia := if 3 ≤ path_parts.length then path_parts.getD (path_parts.length - 3) [] else "??".data
  let data_formatada := dia ++ "/".data ++ mes ++ "/".data ++ ano
  let id_folder := if 2 ≤ path_parts.length then path_parts.getD (path_parts.length - 2) [] else "Unknown".data
  let nome_sem_ext := (splitextName w.file).1
  ⟨path_parts, w.file, nome_sem_ext, data_formatada, id_folder,
   extract_dedo_info nome_sem_ext, extract_frame_info nome_sem_ext⟩

/-- The sort key of `organize_files` (`(x['data'], x['id'], x['filename'])`)
compared as Python compares string tuples: lexicographically, each
component by code points. -/
def pySortKeyLe (x y : MediaItem) : Bool :=
  strLt x.data y.data ||
    (decide (x.data = y.data) &&
      (strLt x.id y.id ||
        (decide (x.id = y.id) && strLe x.filename y.filename)))

/-- Equality of sort keys. -/
def sameKey (x y : MediaItem) : Prop :=
  x.data = y.data ∧ x.id = y.id ∧ x.filename = y.filename

/-- `ZipLoaderThread.organize_files`: parse `(ano, mes)` from the archive
base name, keep the image files of the walk, build one item per kept file,
and stable-sort by `(data, id, filename)` (Python's `list.sort` is stable;
modelled by `List.mergeSort`). -/
def organize_files (zip_path : Str) (walk : List WalkFile) : List MediaItem :=
  let am := (searchDate (basename zip_path)).getD ("????".data, "??".data)
  let all_files := (walk.filter keepFile).map (buildItem am.1 am.2)
  all_files.mergeSort pySortKeyLe

/-- The catalog items in input (enumeration) order, before the final
sort. -/
def preSortItems (zip_path : Str) (walk : List WalkFile) : List MediaItem :=
  let am := (searchDate (basename zip_path)).getD ("????".data, "??".data)
  (walk.filter keepFile).map (buildItem am.1 am.2)

/-- The events a `ZipLoaderThread` can emit. -/
inductive Event where
  | progress (pct : Nat) (txt : Str)
  | finished (items : List MediaItem)
  | error (msg : Str)
deriving DecidableEq, Repr

/-- `⌊log₂ n⌋` by fuelled halving (structural recursion, so the kernel can
evaluate it). -/
def log2fuel : Nat → Nat → Nat
  | 0, _ => 0
  | fuel + 1, n => if n ≤ 1 then 0 else log2fuel fuel (n / 2) + 1

/-- `⌊log₂ n⌋` for `n ≥ 1` (and `0` at `0`). -/
def log2floor (n : Nat) : Nat := log2fuel n n

/-- Round the rational `n / d` to the nearest integer, ties to even: the
rounding used at each IEEE-754 operation. -/
def rnd (n d : Nat) : Nat :=
  let q := n / d
  let r := n % d
  if 2 * r < d then q
  else if d < 2 * r then q + 1
  else if q % 2 = 0 then q else q + 1

/-- `⌊log₂ (n / d)⌋` for `n, d ≥ 1`, computed exactly by scaling `n` so
the quotient's floor keeps its leading bit. -/
def flog2 (n d : Nat) : Int :=
  let k := log2floor d + 1
  (log2floor (n * 2 ^ k / d) : Int) - k

/-- The IEEE-754 binary64 (round-to-nearest, ties-to-even) value of
`n / d`, as a dyadic pair `(m, e)` of value `m·2^e`: the exact quotient is
scaled to 53 significant bits and rounded half-to-even (after a rounding
carry `m` can be `2^53`; the value is still the correctly rounded one).
Python's int-by-int true division returns exactly this correctly rounded
double.  Only positive values in the normal range are modelled — no
overflow or subnormals, which the progress computation cannot reach. -/
def fl53pair (n d : Nat) : Nat × Int :=
  let z := flog2 n d
  let m := if 0 ≤ 52 - z then rnd (n * 2 ^ (52 - z).toNat) d
           else rnd n (d * 2 ^ (z - 52).toNat)
  (m, z - 52)

/-- The binary64 product of the dyadic value `m·2^e` with the exactly
representable `100`: the exact product `m·100·2^e` rounded back to at most
53 significant bits, ties to even (exact when `m·100` already fits). -/
def mul100fl (p : Nat × Int) : Nat × Int :=
  let n2 := p.1 * 100
  let L := log2floor n2
  if L ≤ 52 then (n2, p.2)
  else (rnd n2 (2 ^ (L - 52)), p.2 + ((L : Int) - 52))

/-- Python `int()` on a non-negative dyadic value `m·2^e`: truncation
toward zero, i.e. the floor. -/
def truncDyadic (p : Nat × Int) : Nat :=
  if 0 ≤ p.2 then p.1 * 2 ^ p.2.toNat else p.1 / 2 ^ (-p.2).toNat

/-- `int(((i + 1) / total) * 100)` of the extraction loop, as the program
computes it in binary64: the correctly rounded double quotient
`(i+1)/total`, the correctly rounded double product with `100`, then
`int`'s truncation toward zero.  (Checked against CPython: e.g. it yields
`28` at member 29 of 100 and `66` at member 2 of 3, where exact arithmetic
would give `29` and `66`.) -/
def pyPercent (i total : Nat) : Nat :=
  truncDyadic (mul100fl (fl53pair (i + 1) total))

/-- The rational value of a dyadic pair (proof-side valuation of the
binary64 model). -/
def dval (p : Nat × Int) : ℚ := (p.1 : ℚ) * 2 ^ p.2

/-- The extraction loop of `ZipLoaderThread.run` over the remaining
members, `i` the index of the next one: each successful `extract` is
followed by a progress event; `failAt = some j` means extracting member
`j` raises (the loop then stops and the events so far are followed by the
error handler's event).  Returns the loop's progress events and whether it
completed. -/
def extractLoop (total : Nat) (failAt : Option Nat) : Nat → List Str → List Event × Bool
  | _, [] => ([], true)
  | i, m :: ms =>
    if failAt = some i then ([], false)
    else
      let r := extractLoop total failAt (i + 1) ms
      (Event.progress (pyPercent i total) ("Extraindo: ".data ++ m) :: r.1, r.2)

/-- The event trace of `ZipLoaderThread.run`: initial progress, then
(unless opening the archive raises, `openOk = false`) the extraction loop;
on success the final progress, catalog construction and the finished
event; any exception is caught by the `except` clause, which emits one
error event rendering the exception as `emsg`.  `members` is
`zip_ref.namelist()`, `walk` the files `os.walk` then finds under the
scratch directory. -/
def run_events (zip_path : Str) (members : List Str) (walk : List WalkFile)
    (openOk : Bool) (failAt : Option Nat) (emsg : Str) : List Event :=
  let ev0 := Event.progress 0 ("Iniciando extração...".data)
  if openOk then
    let r := extractLoop members.length failAt 0 members
    if r.2 then
      ev0 :: r.1 ++ [Event.progress 100 ("Organizando arquivos...".data),
                     Event.finished (organize_files zip_path walk)]
    else ev0 :: r.1 ++ [Event.error emsg]
  else [ev0, Event.error emsg]

/-- Whether an event is an error event. -/
def isErrorEv : Event → Bool
  | .error _ => true
  | _ => false

/-- Whether an event is the finished (completion) event. -/
def isFinishedEv : Event → Bool
  | .finished _ => true
  | _ => false

/-- Nearest-integer rounding of the rational `100·completed/total`, halves
up: the `round(100 * completedCount / totalCount)` the specification
prescribes for progress (at the inputs considered here the value is not a
half, so every tie-breaking convention agrees). -/
def roundPercent (completed total : Nat) : Nat :=
  (200 * completed + total) / (2 * total)

/-- What `load_resultado_json` finds on disk: no file, a file whose
contents fail to parse as JSON, or a file parsing to a ledger. -/
inductive StorageState where
  | missing
  | corrupt
  | ok (d : Ledger)

/-- `MainWindow.load_resultado_json`: return the parsed ledger; a missing
file or a parse error (caught by the `except` clause) yields `\x7b\x7d`. -/
def load_resultado_json : StorageState → Ledger
  | .missing => []
  | .corrupt => []
  | .ok d => d

/-- How one `open(resultado_file, 'w')` + `json.dump` attempt can go:
opening raises (file untouched), dumping raises after `k` characters were
written (`open` with mode `'w'` has already truncated, so the file holds a
prefix of the serialization), or everything succeeds. -/
inductive WriteOutcome where
  | openFail
  | dumpFail (k : Nat)
  | success

/-- `MainWindow.save_resultado_json`: `payload` stands for the JSON
serialization of `data` (serialization itself is not modelled), `file` for
the current contents of `resultado.json` (`none` when absent).  Returns
the file contents after the call, the returned Bool (`False` when the
`except` clause caught the failure), and the caller's in-memory ledger
after the call (`json.dump` does not mutate its argument). -/
def save_resultado_json (data : Ledger) (payload : Str) (file : Option Str) :
    WriteOutcome → Option Str × Bool × Ledger
  | .openFail => (file, false, data)
  | .dumpFail k => (some (payload.take k), false, data)
  | .success => (some payload, true, data)

/-! ### Helper lemmas: the ledger dict and the upsert -/

theorem dictGetD_dictSet (d : Ledger) (k : Str) (v v₀ : List Entrada) :
    dictGetD (dictSet d k v) k v₀ = v := by
  induction d with
  | nil => simp [dictSet, dictGetD, List.find?]
  | cons kv rest ih =>
    by_cases h : kv.1 = k
    · simp [dictSet, h, dictGetD, List.find?]
    · simpa [dictSet, h, dictGetD, List.find?] using ih

theorem find?_eq_none_of_not_member (d : Ledger) (k : Str)
    (h : dictMember d k = false) :
    d.find? (fun kv => decide (kv.1 = k)) = none := by
  rw [List.find?_eq_none]
  intro kv hkv
  simp only [dictMember, List.any_eq_false] at h
  simpa using h kv hkv

theorem entriesOf_append_empty (d : Ledger) (k : Str)
    (h : dictMember d k = false) :
    entriesOf (d ++ [(k, [])]) k = [] := by
  simp [entriesOf, dictGetD, List.find?_append, find?_eq_none_of_not_member d k h,
    List.find?]

theorem entriesOf_not_member (d : Ledger) (k : Str)
    (h : dictMember d k = false) :
    entriesOf d k = [] := by
  simp [entriesOf, dictGetD, find?_eq_none_of_not_member d k h]

/-- The record list the saved archive holds after `salvar_anotacao` is
exactly the upsert of the list it held before. -/
theorem entriesOf_salvar (d : Ledger) (op : SaveOp) :
    entriesOf (salvar_anotacao d op) op.zipName
      = upsertEntries (entriesOf d op.zipName) op := by
  unfold salvar_anotacao
  by_cases h : dictMember d op.zipName
  · simp only [h, if_true]
    exact dictGetD_dictSet _ _ _ _
  · simp only [Bool.not_eq_true] at h
    simp only [h, Bool.false_eq_true, if_false]
    have h1 := entriesOf_append_empty d _ h
    have h2 := entriesOf_not_member d _ h
    simp only [entriesOf] at h1 h2
    rw [entriesOf, dictGetD_dictSet, h1, entriesOf, h2]

theorem mem_dictSet (d : Ledger) (k : Str) (v : List Entrada) (kv : Str × List Entrada)
    (h : kv ∈ dictSet d k v) : kv.2 = v ∨ kv ∈ d := by
  induction d with
  | nil => simp [dictSet] at h; simp [h]
  | cons kv' rest ih =>
    by_cases hk : kv'.1 = k
    · simp only [dictSet, hk, if_true, List.mem_cons] at h
      rcases h with h | h
      · exact Or.inl (by simp [h])
      · exact Or.inr (List.mem_cons_of_mem _ h)
    · simp only [dictSet, hk, if_false, List.mem_cons] at h
      rcases h with h | h
      · exact Or.inr (by simp [h])
      · rcases ih h with h' | h'
        · exact Or.inl h'
        · exact Or.inr (List.mem_cons_of_mem _ h')

theorem entriesOf_mem_or_empty (d : Ledger) (k : Str) :
    entriesOf d k = [] ∨ ∃ kv ∈ d, kv.2 = entriesOf d k := by
  unfold entriesOf dictGetD
  cases hf : d.find? (fun kv => decide (kv.1 = k)) with
  | none => exact Or.inl rfl
  | some kv => exact Or.inr ⟨kv, List.mem_of_find?_eq_some hf, rfl⟩

/-- `erroDuplicado` over an appended list. -/
theorem erroDuplicado_append (l₁ l₂ : List Erro) (n : Erro) :
    erroDuplicado (l₁ ++ l₂) n = (erroDuplicado l₁ n || erroDuplicado l₂ n) := by
  simp [erroDuplicado, List.any_append]

/-- The merge loop only appends: the existing errors stay, in order, and
everything appended comes from the new list, in order, and was not a
duplicate of the existing list. -/
theorem mergeErros_extends (old novos : List Erro) :
    ∃ added, mergeErros old novos = old ++ added ∧ added.Sublist novos ∧
      ∀ a ∈ added, erroDuplicado old a = false := by
  induction novos generalizing old with
  | nil => exact ⟨[], by simp [mergeErros], List.Sublist.refl _, by simp⟩
  | cons n ns ih =>
    by_cases hdup : erroDuplicado old n = true
    · obtain ⟨added, h1, h2, h3⟩ := ih old
      refine ⟨added, ?_, h2.cons n, h3⟩
      simpa [mergeErros, hdup] using h1
    · simp only [Bool.not_eq_true] at hdup
      obtain ⟨added, h1, h2, h3⟩ := ih (old ++ [n])
      refine ⟨n :: added, ?_, h2.cons₂ n, ?_⟩
      · simpa [mergeErros, hdup, List.append_assoc] using h1
      · intro a ha
        rcases List.mem_cons.1 ha with rfl | ha
        · exact hdup
        · have := h3 a ha
          rw [erroDuplicado_append] at this
          exact (Bool.or_eq_false_iff.1 this).1

/-- After merging, the `(nome, descricao)` pair of every new error is
present. -/
theorem mergeErros_covers (old novos : List Erro) :
    ∀ n ∈ novos, erroDuplicado (mergeErros old novos) n = true := by
  induction novos generalizing old with
  | nil => simp
  | cons m ns ih =>
    intro n hn
    rcases List.mem_cons.1 hn with rfl | hn
    · by_cases hdup : erroDuplicado old n = true
      · have hstep : mergeErros old (n :: ns) = mergeErros old ns := by
          simp [mergeErros, hdup]
        rw [hstep]
        obtain ⟨added, h1, -, -⟩ := mergeErros_extends old ns
        rw [h1, erroDuplicado_append, hdup, Bool.true_or]
      · simp only [Bool.not_eq_true] at hdup
        have hstep : mergeErros old (n :: ns) = mergeErros (old ++ [n]) ns := by
          simp [mergeErros, hdup]
        rw [hstep]
        obtain ⟨added, h1, -, -⟩ := mergeErros_extends (old ++ [n]) ns
        rw [h1, erroDuplicado_append, erroDuplicado_append]
        have : erroDuplicado [n] n = true := by simp [erroDuplicado]
        simp [this]
    · by_cases hdup : erroDuplicado old m = true
      · have hstep : mergeErros old (m :: ns) = mergeErros old ns := by
          simp [mergeErros, hdup]
        rw [hstep]; exact ih old n hn
      · simp only [Bool.not_eq_true] at hdup
        have hstep : mergeErros old (m :: ns) = mergeErros (old ++ [m]) ns := by
          simp [mergeErros, hdup]
        rw [hstep]; exact ih (old ++ [m]) n hn

/-- Merging errors that are all already present changes nothing. -/
theorem mergeErros_eq_self (old novos : List Erro)
    (h : ∀ n ∈ novos, erroDuplicado old n = true) :
    mergeErros old novos = old := by
  induction novos with
  | nil => simp [mergeErros]
  | cons n ns ih =>
    have hdup := h n (List.mem_cons_self n ns)
    have hstep : mergeErros old (n :: ns) = mergeErros old ns := by
      simp [mergeErros, hdup]
    rw [hstep]
    exact ih fun m hm => h m (List.mem_cons_of_mem _ hm)

theorem updateFirst_append_of_none (p : α → Bool) (f : α → α) (l₁ rest : List α)
    (h : ∀ y ∈ l₁, p y = false) :
    updateFirst p f (l₁ ++ rest) = l₁ ++ updateFirst p f rest := by
  induction l₁ with
  | nil => simp
  | cons x xs ih =>
    have hx := h x (List.mem_cons_self x xs)
    simp only [List.cons_append, updateFirst, hx, Bool.false_eq_true, if_false,
      List.cons.injEq, true_and]
    exact ih fun y hy => h y (List.mem_cons_of_mem _ hy)

/-- A list with a `p`-positive element decomposes at its first
`p`-positive element, and `updateFirst` rewrites exactly that element. -/
theorem updateFirst_decomp (p : α → Bool) (f : α → α) (l : List α)
    (h : l.any p = true) :
    ∃ l₁ x l₂, l = l₁ ++ x :: l₂ ∧ (∀ y ∈ l₁, p y = false) ∧ p x = true ∧
      updateFirst p f l = l₁ ++ f x :: l₂ := by
  induction l with
  | nil => simp at h
  | cons x xs ih =>
    by_cases hx : p x = true
    · exact ⟨[], x, xs, by simp, by simp, hx, by simp [updateFirst, hx]⟩
    · simp only [Bool.not_eq_true] at hx
      have hxs : xs.any p = true := by
        simpa [List.any_cons, hx] using h
      obtain ⟨l₁, y, l₂, h1, h2, h3, h4⟩ := ih hxs
      refine ⟨x :: l₁, y, l₂, by simp [h1], ?_, h3, ?_⟩
      · intro z hz
        rcases List.mem_cons.1 hz with rfl | hz
        · exact hx
        · exact h2 z hz
      · simp [updateFirst, hx, h4]

theorem upsertEntries_absent (entries : List Entrada) (op : SaveOp)
    (h : ∀ e ∈ entries, e.arquivo ≠ op.arquivo) :
    upsertEntries entries op
      = entries ++ [⟨op.arquivo, op.data, op.id, op.dedo, mergeErros [] op.erros⟩] := by
  have hany : entries.any (fun e => decide (e.arquivo = op.arquivo)) = false := by
    simp only [List.any_eq_false]
    intro e he
    simpa using h e he
  simp [upsertEntries, hany]

theorem upsertEntries_present (entries : List Entrada) (op : SaveOp)
    (h : entries.any (fun e => decide (e.arquivo = op.arquivo)) = true) :
    ∃ l₁ e l₂, entries = l₁ ++ e :: l₂ ∧ (∀ x ∈ l₁, x.arquivo ≠ op.arquivo) ∧
      e.arquivo = op.arquivo ∧
      upsertEntries entries op
        = l₁ ++ (⟨e.arquivo, e.data, e.id, e.dedo, mergeErros e.erros op.erros⟩ : Entrada) :: l₂ := by
  obtain ⟨l₁, x, l₂, h1, h2, h3, h4⟩ :=
    updateFirst_decomp (fun e => decide (e.arquivo = op.arquivo))
      (fun e => ⟨e.arquivo, e.data, e.id, e.dedo, mergeErros e.erros op.erros⟩) entries h
  refine ⟨l₁, x, l₂, h1, fun y hy => by simpa using h2 y hy, by simpa using h3, ?_⟩
  simp [upsertEntries, h, h4]

theorem noDup_upsertEntries (entries : List Entrada) (op : SaveOp)
    (h : NoDupArquivos entries) : NoDupArquivos (upsertEntries entries op) := by
  by_cases hany : entries.any (fun e => decide (e.arquivo = op.arquivo)) = true
  · obtain ⟨l₁, e, l₂, h1, h2, h3, h4⟩ := upsertEntries_present entries op hany
    rw [h4]
    rw [h1] at h
    unfold NoDupArquivos at h ⊢
    rw [List.pairwise_append] at h ⊢
    obtain ⟨hp1, hp2, hp3⟩ := h
    rw [List.pairwise_cons] at hp2 ⊢
    refine ⟨hp1, ⟨?_, hp2.2⟩, ?_⟩
    · intro b hb
      simpa using hp2.1 b hb
    · intro a ha b hb
      rcases List.mem_cons.1 hb with rfl | hb
      · simpa using hp3 a ha e (List.mem_cons_self _ _)
      · exact hp3 a ha b (List.mem_cons_of_mem _ hb)
  · simp only [Bool.not_eq_true, List.any_eq_false] at hany
    have habs : ∀ e ∈ entries, e.arquivo ≠ op.arquivo := fun e he => by
      simpa using hany e he
    rw [upsertEntries_absent entries op habs]
    unfold NoDupArquivos at h ⊢
    rw [List.pairwise_append]
    refine ⟨h, List.pairwise_singleton _ _, fun a ha b hb => ?_⟩
    simp only [List.mem_singleton] at hb
    subst hb
    exact habs a ha

theorem ledgerInv_salvar (d : Ledger) (op : SaveOp) (h : LedgerInv d) :
    LedgerInv (salvar_anotacao d op) := by
  unfold salvar_anotacao
  set d₁ := if dictMember d op.zipName then d else d ++ [(op.zipName, [])] with hd₁
  have hInv₁ : LedgerInv d₁ := by
    rw [hd₁]
    by_cases hm : dictMember d op.zipName
    · simpa [hm] using h
    · simp only [hm, Bool.false_eq_true, if_false]
      intro kv hkv
      rcases List.mem_append.1 hkv with hkv | hkv
      · exact h kv hkv
      · simp only [List.mem_singleton] at hkv
        rw [hkv]
        exact List.Pairwise.nil
  have hEnt : NoDupArquivos (dictGetD d₁ op.zipName []) := by
    rcases entriesOf_mem_or_empty d₁ op.zipName with h0 | ⟨kv, hkv, hv⟩
    · rw [entriesOf] at h0
      rw [h0]
      exact List.Pairwise.nil
    · rw [entriesOf] at hv
      rw [← hv]
      exact hInv₁ kv hkv
  intro kv hkv
  rcases mem_dictSet _ _ _ _ hkv with h2 | h2
  · rw [h2]
    exact noDup_upsertEntries _ _ hEnt
  · exact hInv₁ kv h2

theorem ledgerInv_foldl (ops : List SaveOp) :
    LedgerInv (ops.foldl salvar_anotacao []) := by
  have key : ∀ d, LedgerInv d → LedgerInv (ops.foldl salvar_anotacao d) := by
    induction ops with
    | nil => exact fun d h => h
    | cons op ops ih => exact fun d h => ih _ (ledgerInv_salvar d op h)
  refine key [] ?_
  intro kv hkv
  simp at hkv

/-- C1: every sequence of saves keeps at most one record per
`(archiveName, fileName)` pair; a save for a file with no record under its
archive appends a fresh record at the end; a save for a file that already
has a record rewrites exactly that record, merging the new errors into its
error list and leaving its other fields (and every other record)
untouched; and the merge appends only errors whose `(nome, descricao)`
pair was not already present. -/
theorem ledger_unique_record_per_file :
    (∀ ops : List SaveOp, LedgerInv (ops.foldl salvar_anotacao [])) ∧
    (∀ (d : Ledger) (op : SaveOp), LedgerInv d → LedgerInv (salvar_anotacao d op)) ∧
    (∀ (d : Ledger) (op : SaveOp),
      (∀ e ∈ entriesOf d op.zipName, e.arquivo ≠ op.arquivo) →
      entriesOf (salvar_anotacao d op) op.zipName
        = entriesOf d op.zipName
            ++ [⟨op.arquivo, op.data, op.id, op.dedo, mergeErros [] op.erros⟩]) ∧
    (∀ (d : Ledger) (op : SaveOp),
      (∃ e ∈ entriesOf d op.zipName, e.arquivo = op.arquivo) →
      ∃ l₁ e l₂, entriesOf d op.zipName = l₁ ++ e :: l₂ ∧
        (∀ x ∈ l₁, x.arquivo ≠ op.arquivo) ∧ e.arquivo = op.arquivo ∧
        entriesOf (salvar_anotacao d op) op.zipName
          = l₁ ++ (⟨e.arquivo, e.data, e.id, e.dedo,
                    mergeErros e.erros op.erros⟩ : Entrada) :: l₂) ∧
    (∀ old novos : List Erro, ∃ added, mergeErros old novos = old ++ added ∧
      added.Sublist novos ∧ ∀ a ∈ added, erroDuplicado old a = false) := by
  refine ⟨ledgerInv_foldl, ledgerInv_salvar, ?_, ?_, mergeErros_extends⟩
  · intro d op h
    rw [entriesOf_salvar, upsertEntries_absent _ _ h]
  · intro d op h
    have hany : (entriesOf d op.zipName).any
        (fun e => decide (e.arquivo = op.arquivo)) = true := by
      rw [List.any_eq_true]
      obtain ⟨e, he, harq⟩ := h
      exact ⟨e, he, by simpa using harq⟩
    obtain ⟨l₁, e, l₂, h1, h2, h3, h4⟩ := upsertEntries_present _ op hany
    exact ⟨l₁, e, l₂, h1, h2, h3, by rw [entriesOf_salvar, h4]⟩

/-- Witness for C1 at a concrete input: saving one error for a file absent
from an empty ledger appends exactly one fresh record. -/
theorem ledger_unique_record_per_file_witness :
    entriesOf
        (salvar_anotacao []
          ⟨"z.zip".data, "a.jpg".data, "15/05/2024".data, "S1".data,
            "Dedão".data, [⟨"Borrada".data, "desc".data, 5, "t1".data⟩]⟩)
        ("z.zip".data)
      = entriesOf ([] : Ledger) ("z.zip".data)
          ++ [⟨"a.jpg".data, "15/05/2024".data, "S1".data, "Dedão".data,
               mergeErros [] [⟨"Borrada".data, "desc".data, 5, "t1".data⟩]⟩] :=
  ledger_unique_record_per_file.2.2.1 []
    ⟨"z.zip".data, "a.jpg".data, "15/05/2024".data, "S1".data,
      "Dedão".data, [⟨"Borrada".data, "desc".data, 5, "t1".data⟩]⟩
    (by decide)

theorem dictMember_dictSet (d : Ledger) (k : Str) (v : List Entrada) :
    dictMember (dictSet d k v) k = true := by
  induction d with
  | nil => simp [dictSet, dictMember]
  | cons kv rest ih =>
    by_cases hk : kv.1 = k
    · simp [dictSet, hk, dictMember]
    · simp only [dictSet, hk, if_false, dictMember, List.any_cons]
      simp only [dictMember] at ih
      simp [ih]

theorem dictSet_dictSet (d : Ledger) (k : Str) (v w : List Entrada) :
    dictSet (dictSet d k v) k w = dictSet d k w := by
  induction d with
  | nil => simp [dictSet]
  | cons kv rest ih =>
    by_cases hk : kv.1 = k
    · simp [dictSet, hk]
    · simp [dictSet, hk, ih]

theorem erroDuplicado_congr_pair (l : List Erro) (e e' : Erro)
    (hn : e.nome = e'.nome) (hd : e.descricao = e'.descricao) :
    erroDuplicado l e' = erroDuplicado l e := by
  simp [erroDuplicado, ← hn, ← hd]

theorem entrada_eta (e : Entrada) :
    (⟨e.arquivo, e.data, e.id, e.dedo, e.erros⟩ : Entrada) = e := rfl

/-- A second upsert whose errors' `(nome, descricao)` pairs are all among
the first upsert's is a no-op on the record list. -/
theorem upsertEntries_idem_aux (entries : List Entrada) (op op' : SaveOp)
    (harq : op'.arquivo = op.arquivo)
    (hcov : ∀ e' ∈ op'.erros, ∃ e ∈ op.erros,
      e.nome = e'.nome ∧ e.descricao = e'.descricao) :
    upsertEntries (upsertEntries entries op) op' = upsertEntries entries op := by
  have hcovDup : ∀ w, ∀ e' ∈ op'.erros, erroDuplicado (mergeErros w op.erros) e' = true := by
    intro w e' he'
    obtain ⟨e, he, hn, hd⟩ := hcov e' he'
    rw [erroDuplicado_congr_pair _ e e' hn hd]
    exact mergeErros_covers w op.erros e he
  obtain ⟨l₁, x, l₂, hL, hl₁, hx, hxw⟩ :
      ∃ l₁ x l₂, upsertEntries entries op = l₁ ++ x :: l₂ ∧
        (∀ y ∈ l₁, y.arquivo ≠ op.arquivo) ∧ x.arquivo = op.arquivo ∧
        ∃ w, x.erros = mergeErros w op.erros := by
    by_cases hany : entries.any (fun e => decide (e.arquivo = op.arquivo)) = true
    · obtain ⟨l₁, e, l₂, h1, h2, h3, h4⟩ := upsertEntries_present entries op hany
      exact ⟨l₁, _, l₂, h4, h2, h3, e.erros, rfl⟩
    · simp only [Bool.not_eq_true, List.any_eq_false] at hany
      have habs : ∀ e ∈ entries, e.arquivo ≠ op.arquivo := fun e he => by
        simpa using hany e he
      exact ⟨entries, _, [], by rw [upsertEntries_absent entries op habs], habs, rfl,
        [], rfl⟩
  obtain ⟨w, hw⟩ := hxw
  have hanyE : (upsertEntries entries op).any
      (fun e => decide (e.arquivo = op'.arquivo)) = true := by
    rw [List.any_eq_true]
    refine ⟨x, ?_, by simp [hx, harq]⟩
    rw [hL]
    exact List.mem_append_right _ (List.mem_cons_self _ _)
  have hfx : (⟨x.arquivo, x.data, x.id, x.dedo,
      mergeErros x.erros op'.erros⟩ : Entrada) = x := by
    have : mergeErros x.erros op'.erros = x.erros := by
      rw [hw]
      exact mergeErros_eq_self _ _ (hcovDup w)
    rw [this]
  rw [hL] at hanyE ⊢
  simp only [upsertEntries, hanyE, if_true]
  rw [updateFirst_append_of_none _ _ l₁ _ (fun y hy => by simp [harq, hl₁ y hy])]
  have hstep : updateFirst (fun e => decide (e.arquivo = op'.arquivo))
      (fun e => (⟨e.arquivo, e.data, e.id, e.dedo,
        mergeErros e.erros op'.erros⟩ : Entrada))
      (x :: l₂) = x :: l₂ := by
    simp only [updateFirst]
    rw [if_pos (by simp [hx, harq]), hfx]
  rw [hstep]

/-- C2: re-saving for the same `(archiveName, fileName)` with errors whose
`(nome, descricao)` pairs were all saved before (ratings and timestamps
may differ) leaves the ledger exactly as it was: no duplicate record, no
duplicate error entry, and the first save's ratings are retained.  The
byte-identical double save is the special case `op' = op`. -/
theorem ledger_upsert_idempotent (d : Ledger) (op op' : SaveOp)
    (hz : op'.zipName = op.zipName) (harq : op'.arquivo = op.arquivo)
    (hcov : ∀ e' ∈ op'.erros, ∃ e ∈ op.erros,
      e.nome = e'.nome ∧ e.descricao = e'.descricao) :
    salvar_anotacao (salvar_anotacao d op) op' = salvar_anotacao d op := by
  unfold salvar_anotacao
  simp only [hz]
  rw [dictMember_dictSet]
  simp only [if_true]
  rw [dictGetD_dictSet]
  rw [upsertEntries_idem_aux _ op op' harq hcov]
  exact dictSet_dictSet _ _ _ _

/-- Witness for C2 at a concrete input: saving the same `(nome, descricao)`
with a different rating and timestamp a second time changes nothing. -/
theorem ledger_upsert_idempotent_witness :
    salvar_anotacao
        (salvar_anotacao []
          ⟨"z.zip".data, "a.jpg".data, "15/05/2024".data, "S1".data,
            "Dedão".data, [⟨"Borrada".data, "desc".data, 5, "t1".data⟩]⟩)
        ⟨"z.zip".data, "a.jpg".data, "15/05/2024".data, "S1".data,
          "Dedão".data, [⟨"Borrada".data, "desc".data, 2, "t2".data⟩]⟩
      = salvar_anotacao []
          ⟨"z.zip".data, "a.jpg".data, "15/05/2024".data, "S1".data,
            "Dedão".data, [⟨"Borrada".data, "desc".data, 5, "t1".data⟩]⟩ :=
  ledger_upsert_idempotent []
    ⟨"z.zip".data, "a.jpg".data, "15/05/2024".data, "S1".data,
      "Dedão".data, [⟨"Borrada".data, "desc".data, 5, "t1".data⟩]⟩
    ⟨"z.zip".data, "a.jpg".data, "15/05/2024".data, "S1".data,
      "Dedão".data, [⟨"Borrada".data, "desc".data, 2, "t2".data⟩]⟩
    rfl rfl (by decide)

/-! ### Persistence load/save and the extraction event trace -/

/-- C8: loading the ledger never propagates an error: a missing file or a
parse failure yields the empty ledger. -/
theorem load_missing_or_corrupt_empty (s : StorageState)
    (h : s = StorageState.missing ∨ s = StorageState.corrupt) :
    load_resultado_json s = [] := by
  rcases h with rfl | rfl <;> rfl

/-- Witness for C8: the missing-file case concretely. -/
theorem load_missing_or_corrupt_empty_witness :
    load_resultado_json StorageState.missing = [] :=
  load_missing_or_corrupt_empty StorageState.missing (Or.inl rfl)

/-- C9 counterexample: old contents `"old"`, new serialization `"new"`,
dump raising after one character: the call reports failure (returns
`False`), yet the file now holds `"n"` — neither its old contents nor the
full new serialization, i.e. it has been partially overwritten. -/
theorem save_partial_overwrite_possible :
    (save_resultado_json [] ("new".data) (some ("old".data))
        (WriteOutcome.dumpFail 1)).2.1 = false ∧
    (save_resultado_json [] ("new".data) (some ("old".data))
        (WriteOutcome.dumpFail 1)).1 = some ("n".data) ∧
    some ("n".data) ≠ some ("old".data) ∧
    some ("n".data) ≠ some ("new".data) := by decide

/-- C9 amended: saving either fully succeeds (the file holds the complete
serialization and `True` is returned) or the failure is reported to the
caller as `False`; in the failure case the file is either untouched (open
raised) or holds a prefix of the new serialization — the truncating
`open(..., 'w')` makes partial overwriting possible.  The caller's
in-memory ledger is unchanged in every outcome. -/
theorem save_outcomes (data : Ledger) (payload : Str) (file : Option Str)
    (o : WriteOutcome) :
    ((save_resultado_json data payload file o).2.1 = true →
      (save_resultado_json data payload file o).1 = some payload) ∧
    ((save_resultado_json data payload file o).2.1 = false →
      (save_resultado_json data payload file o).1 = file ∨
      ∃ k, (save_resultado_json data payload file o).1 = some (payload.take k)) ∧
    (save_resultado_json data payload file o).2.2 = data := by
  cases o with
  | openFail =>
    refine ⟨fun h => ?_, fun _ => Or.inl rfl, rfl⟩
    simp [save_resultado_json] at h
  | dumpFail k => exact ⟨fun h => by simp [save_resultado_json] at h,
      fun _ => Or.inr ⟨k, rfl⟩, rfl⟩
  | success => exact ⟨fun _ => rfl, fun h => by simp [save_resultado_json] at h, rfl⟩

/-- Witness for C9 (amended) at a concrete input: a successful save fully
rewrites the file. -/
theorem save_outcomes_witness :
    (save_resultado_json [] ("new".data) none WriteOutcome.success).1
      = some ("new".data) :=
  (save_outcomes [] ("new".data) none WriteOutcome.success).1 rfl

/-- C10 counterexample: a concrete valid archive with zero members — `run`
emits no error event and does emit the completion event, contrary to the
claim that the zero member count causes a division by zero. -/
theorem run_empty_zip_no_error :
    (run_events ("z.zip".data) [] [] true none ("boom".data)).any isErrorEv
        = false ∧
    (run_events ("z.zip".data) [] [] true none ("boom".data)).any isFinishedEv
        = true := by decide

/-- C10 amended: for every valid archive with zero members the extraction
loop body never runs, so the percent computation (the only division by the
member count) is never evaluated; `run` emits the initial progress, the
final progress and the completion event carrying the catalog of the
scratch directory, and never an error event. -/
theorem run_empty_zip_completes (zip_path : Str) (walk : List WalkFile)
    (failAt : Option Nat) (emsg : Str) :
    run_events zip_path [] walk true failAt emsg
      = [Event.progress 0 ("Iniciando extração...".data),
         Event.progress 100 ("Organizando arquivos...".data),
         Event.finished (organize_files zip_path walk)] ∧
    (run_events zip_path [] walk true failAt emsg).any isErrorEv = false ∧
    (run_events zip_path [] walk true failAt emsg).any isFinishedEv = true := by
  have h : run_events zip_path [] walk true failAt emsg
      = [Event.progress 0 ("Iniciando extração...".data),
         Event.progress 100 ("Organizando arquivos...".data),
         Event.finished (organize_files zip_path walk)] := rfl
  exact ⟨h, by rw [h]; rfl, by rw [h]; rfl⟩

/-- The extraction loop with no failing member produces one progress event
per member, indexed from `i`. -/
theorem extractLoop_none (total : Nat) (ms : List Str) (i : Nat) :
    extractLoop total none i ms
      = ((ms.enumFrom i).map fun p =>
          Event.progress (pyPercent p.1 total) ("Extraindo: ".data ++ p.2), true) := by
  induction ms generalizing i with
  | nil => rfl
  | cons m ms ih =>
    simp only [extractLoop, List.enumFrom, List.map_cons]
    rw [if_neg (by simp)]
    rw [ih (i + 1)]

/-- `log2fuel` computes the floor of the base-2 logarithm when given
enough fuel. -/
theorem log2fuel_spec (fuel : Nat) : ∀ n, 1 ≤ n → n ≤ fuel →
    2 ^ log2fuel fuel n ≤ n ∧ n < 2 ^ (log2fuel fuel n + 1) := by
  induction fuel with
  | zero => intro n h1 h2; omega
  | succ fuel ih =>
    intro n h1 h2
    by_cases hn : n ≤ 1
    · have he : n = 1 := by omega
      subst he
      simp [log2fuel]
    · have hrec := ih (n / 2) (by omega) (by omega)
      have hstep : log2fuel (fuel + 1) n = log2fuel fuel (n / 2) + 1 := by
        simp [log2fuel, hn]
      rw [hstep]
      set g := log2fuel fuel (n / 2)
      have hp : (2:Nat) ^ (g + 1) = 2 * 2 ^ g := by rw [pow_succ]; ring
      have hp2 : (2:Nat) ^ (g + 1 + 1) = 2 * 2 ^ (g + 1) := by rw [pow_succ _ (g+1)]; ring
      omega

theorem log2floor_spec (n : Nat) (h : 1 ≤ n) :
    2 ^ log2floor n ≤ n ∧ n < 2 ^ (log2floor n + 1) :=
  log2fuel_spec n n h le_rfl

/-- Rounding to nearest overshoots the exact quotient by at most a
half. -/
theorem rnd_le_q (n d : Nat) (hd : 1 ≤ d) :
    (rnd n d : ℚ) ≤ (n : ℚ) / d + 1 / 2 := by
  have hd0 : (0:ℚ) < (d:ℚ) := by exact_mod_cast (by omega : 0 < d)
  have hdm : d * (n / d) + n % d = n := Nat.div_add_mod n d
  have hdmq : ((d * (n / d) + n % d : Nat) : ℚ) = (n:ℚ) := by exact_mod_cast congrArg Nat.cast hdm
  have hnd : (n:ℚ) / d = ((n / d : Nat) : ℚ) + ((n % d : Nat) : ℚ) / d := by
    push_cast at hdmq
    field_simp
    linarith
  have hr2 : (0:ℚ) ≤ ((n % d : Nat) : ℚ) / d := by positivity
  simp only [rnd]
  split_ifs with h1 h2 h3
  · rw [hnd]
    linarith
  · have hcast : (d:ℚ) < 2 * ((n % d : Nat) : ℚ) := by exact_mod_cast h2
    have hhalf : (1:ℚ)/2 ≤ ((n % d : Nat):ℚ) / d := by
      rw [div_le_div_iff₀ (by norm_num) hd0]
      linarith
    rw [hnd]
    push_cast
    linarith
  · rw [hnd]
    linarith
  · have htie : 2 * (n % d) = d := by omega
    have hcast : 2 * ((n % d : Nat) : ℚ) = (d:ℚ) := by exact_mod_cast htie
    have hhalf : ((n % d : Nat):ℚ) / d = 1/2 := by
      rw [div_eq_iff hd0.ne']
      linarith
    rw [hnd]
    push_cast
    linarith

/-- `flog2` never exceeds the exact base-2 logarithm:
`2 ^ flog2 n d ≤ n / d`. -/
theorem flog2_le (n d : Nat) (hn : 1 ≤ n) (hd : 1 ≤ d) :
    (2:ℚ) ^ flog2 n d ≤ (n : ℚ) / d := by
  have hd0 : (0:ℚ) < (d:ℚ) := by exact_mod_cast (by omega : 0 < d)
  have hdk : d < 2 ^ (log2floor d + 1) := (log2floor_spec d hd).2
  have hM1 : 1 ≤ n * 2 ^ (log2floor d + 1) / d := by
    rw [Nat.le_div_iff_mul_le (by omega : 0 < d)]
    calc 1 * d = d := one_mul d
      _ ≤ 2 ^ (log2floor d + 1) := le_of_lt hdk
      _ ≤ n * 2 ^ (log2floor d + 1) := Nat.le_mul_of_pos_left _ (by omega)
  have hlow := (log2floor_spec _ hM1).1
  have hMle : (n * 2 ^ (log2floor d + 1) / d) * d ≤ n * 2 ^ (log2floor d + 1) :=
    Nat.div_mul_le_self _ _
  have hNat : 2 ^ log2floor (n * 2 ^ (log2floor d + 1) / d) * d
      ≤ n * 2 ^ (log2floor d + 1) :=
    le_trans (Nat.mul_le_mul_right d hlow) hMle
  simp only [flog2]
  rw [zpow_sub₀ (by norm_num : (2:ℚ) ≠ 0), zpow_natCast, zpow_natCast]
  rw [div_le_div_iff₀ (by positivity) hd0]
  exact_mod_cast hNat

/-- One correctly rounded operation inflates a positive value by at most
a factor `1 + 2⁻⁵³` (half an ulp). -/
theorem round_scaled_le (q : ℚ) (z : Int) (m : Nat)
    (hzq : (2:ℚ) ^ z ≤ q)
    (hm : (m : ℚ) ≤ q * 2 ^ ((52:Int) - z) + 1 / 2) :
    (m : ℚ) * 2 ^ (z - 52) ≤ q * (1 + 2 ^ (-53 : Int)) := by
  have h20 : (2:ℚ) ≠ 0 := by norm_num
  have hu : (0:ℚ) < (2:ℚ) ^ (z - 52) := by positivity
  have step1 : (m : ℚ) * 2 ^ (z - 52) ≤ (q * 2 ^ ((52:Int) - z) + 1 / 2) * 2 ^ (z - 52) :=
    mul_le_mul_of_nonneg_right hm (le_of_lt hu)
  have e1 : (2:ℚ) ^ ((52:Int) - z) * 2 ^ (z - 52) = 1 := by
    rw [← zpow_add₀ h20, show (52:Int) - z + (z - 52) = 0 by ring, zpow_zero]
  have e2 : (2:ℚ) ^ (z - 53) = (1/2 : ℚ) * 2 ^ (z - 52) := by
    rw [show z - 53 = (-1) + (z - 52) by ring, zpow_add₀ h20]
    norm_num
  have e3 : (2:ℚ) ^ (z - 53) ≤ q * 2 ^ (-53 : Int) := by
    have hmul := mul_le_mul_of_nonneg_right hzq
      (le_of_lt (show (0:ℚ) < 2 ^ (-53:Int) by positivity))
    calc (2:ℚ) ^ (z - 53) = 2 ^ z * 2 ^ (-53:Int) := by
          rw [← zpow_add₀ h20, show z + (-53) = z - 53 by ring]
      _ ≤ q * 2 ^ (-53:Int) := hmul
  calc (m : ℚ) * 2 ^ (z - 52) ≤ (q * 2 ^ ((52:Int) - z) + 1 / 2) * 2 ^ (z - 52) := step1
    _ = q * ((2:ℚ) ^ ((52:Int) - z) * 2 ^ (z - 52)) + (1/2) * 2 ^ (z - 52) := by ring
    _ = q + 2 ^ (z - 53) := by rw [e1, e2, mul_one]
    _ ≤ q + q * 2 ^ (-53:Int) := by linarith
    _ = q * (1 + 2 ^ (-53:Int)) := by ring

theorem dval_nonneg (p : Nat × Int) : 0 ≤ dval p := by
  unfold dval
  positivity

/-- The binary64 quotient is at most the exact quotient times
`1 + 2⁻⁵³`. -/
theorem fl53pair_le (n d : Nat) (hn : 1 ≤ n) (hd : 1 ≤ d) :
    dval (fl53pair n d) ≤ (n : ℚ) / d * (1 + 2 ^ (-53 : Int)) := by
  have hzq := flog2_le n d hn hd
  simp only [fl53pair, dval]
  by_cases hbr : 0 ≤ 52 - flog2 n d
  · simp only [hbr, if_true]
    refine round_scaled_le ((n:ℚ)/d) (flog2 n d) _ hzq ?_
    have h1 := rnd_le_q (n * 2 ^ (52 - flog2 n d).toNat) d hd
    refine le_trans h1 (le_of_eq ?_)
    congr 1
    push_cast
    rw [show ((2:ℚ) ^ (52 - flog2 n d).toNat) = (2:ℚ) ^ ((52:Int) - flog2 n d) from by
      rw [← zpow_natCast]
      congr 1
      omega]
    ring
  · simp only [hbr, if_false]
    refine round_scaled_le ((n:ℚ)/d) (flog2 n d) _ hzq ?_
    have hdd : 1 ≤ d * 2 ^ (flog2 n d - 52).toNat := by
      have h1 := Nat.two_pow_pos ((flog2 n d - 52).toNat)
      exact Nat.one_le_iff_ne_zero.2 (Nat.mul_ne_zero (by omega) (by omega))
    have h1 := rnd_le_q n (d * 2 ^ (flog2 n d - 52).toNat) hdd
    refine le_trans h1 (le_of_eq ?_)
    congr 1
    have hc : ((d * 2 ^ (flog2 n d - 52).toNat : Nat) : ℚ)
        = (d : ℚ) * (2:ℚ) ^ (flog2 n d - (52:Int)) := by
      push_cast
      rw [show ((2:ℚ) ^ (flog2 n d - 52).toNat) = (2:ℚ) ^ (flog2 n d - (52:Int)) from by
        rw [← zpow_natCast]
        congr 1
        omega]
    rw [hc, show (2:ℚ) ^ ((52:Int) - flog2 n d) = ((2:ℚ) ^ (flog2 n d - (52:Int)))⁻¹ from by
      rw [← zpow_neg]
      congr 1
      ring]
    rw [div_mul_eq_div_div, div_eq_mul_inv ((n:ℚ)/d)]

/-- The binary64 product with 100 is at most the exact product times
`1 + 2⁻⁵³`. -/
theorem mul100fl_le (p : Nat × Int) :
    dval (mul100fl p) ≤ dval p * 100 * (1 + 2 ^ (-53 : Int)) := by
  simp only [mul100fl, dval]
  by_cases hL : log2floor (p.1 * 100) ≤ 52
  · simp only [hL, if_true]
    have hnn : (0:ℚ) ≤ (p.1 : ℚ) * 2 ^ p.2 * 100 := by positivity
    have hu : (0:ℚ) ≤ (2:ℚ) ^ (-53:Int) := by positivity
    push_cast
    nlinarith [mul_nonneg hnn hu]
  · simp only [hL, if_false]
    have hn2 : 1 ≤ p.1 * 100 := by
      by_contra hcon
      have hz : p.1 * 100 = 0 := by omega
      rw [hz] at hL
      simp [log2floor, log2fuel] at hL
    have hspec := log2floor_spec (p.1 * 100) hn2
    have hL53 : 53 ≤ log2floor (p.1 * 100) := by omega
    have hzq : (2:ℚ) ^ (log2floor (p.1 * 100) : Int) ≤ ((p.1 * 100 : Nat) : ℚ) := by
      rw [zpow_natCast]
      exact_mod_cast hspec.1
    have hd2 : 1 ≤ 2 ^ (log2floor (p.1 * 100) - 52) := Nat.one_le_two_pow
    have hm := rnd_le_q (p.1 * 100) (2 ^ (log2floor (p.1 * 100) - 52)) hd2
    have hmq : ((rnd (p.1 * 100) (2 ^ (log2floor (p.1 * 100) - 52)) : Nat) : ℚ)
        ≤ ((p.1 * 100 : Nat) : ℚ) * 2 ^ ((52:Int) - log2floor (p.1 * 100)) + 1/2 := by
      refine le_trans hm (le_of_eq ?_)
      congr 1
      have hc : ((2 ^ (log2floor (p.1 * 100) - 52) : Nat) : ℚ)
          = (2:ℚ) ^ ((log2floor (p.1 * 100) : Int) - 52) := by
        push_cast
        rw [← zpow_natCast]
        congr 1
        omega
      rw [hc, show (2:ℚ) ^ ((52:Int) - log2floor (p.1 * 100))
          = ((2:ℚ) ^ ((log2floor (p.1 * 100) : Int) - 52))⁻¹ from by
        rw [← zpow_neg]
        congr 1
        ring]
      rw [div_eq_mul_inv]
    have hmaster := round_scaled_le ((p.1 * 100 : Nat) : ℚ)
      (log2floor (p.1 * 100) : Int) _ hzq hmq
    rw [show p.2 + ((log2floor (p.1 * 100) : Int) - 52)
        = ((log2floor (p.1 * 100) : Int) - 52) + p.2 from by ring,
      zpow_add₀ (by norm_num : (2:ℚ) ≠ 0)]
    have h2p : (0:ℚ) < (2:ℚ) ^ p.2 := by positivity
    calc ((rnd (p.1 * 100) (2 ^ (log2floor (p.1 * 100) - 52)) : Nat) : ℚ)
          * ((2:ℚ) ^ ((log2floor (p.1 * 100) : Int) - 52) * 2 ^ p.2)
        = (((rnd (p.1 * 100) (2 ^ (log2floor (p.1 * 100) - 52)) : Nat) : ℚ)
            * (2:ℚ) ^ ((log2floor (p.1 * 100) : Int) - 52)) * 2 ^ p.2 := by ring
      _ ≤ (((p.1 * 100 : Nat) : ℚ) * (1 + 2 ^ (-53:Int))) * 2 ^ p.2 :=
          mul_le_mul_of_nonneg_right hmaster (le_of_lt h2p)
      _ = (p.1:ℚ) * 2 ^ p.2 * 100 * (1 + 2 ^ (-53:Int)) := by push_cast; ring

/-- Truncating a dyadic value below 101 gives at most 100. -/
theorem truncDyadic_le_100 (p : Nat × Int) (h : dval p < 101) :
    truncDyadic p ≤ 100 := by
  unfold dval at h
  simp only [truncDyadic]
  by_cases he : 0 ≤ p.2
  · simp only [he, if_true]
    have hq : ((p.1 * 2 ^ p.2.toNat : Nat) : ℚ) < 101 := by
      push_cast
      rw [show (2:ℚ) ^ p.2.toNat = (2:ℚ) ^ p.2 from by
        rw [← zpow_natCast]
        congr 1
        omega]
      exact h
    have hN : (p.1 * 2 ^ p.2.toNat : Nat) < 101 := by exact_mod_cast hq
    omega
  · simp only [he, if_false]
    have hD : 0 < 2 ^ (-p.2).toNat := Nat.two_pow_pos _
    have hDq : (0:ℚ) < ((2 ^ (-p.2).toNat : Nat) : ℚ) := by exact_mod_cast hD
    have hxx : (2:ℚ) ^ p.2 = (((2 ^ (-p.2).toNat : Nat) : ℚ))⁻¹ := by
      push_cast
      rw [← zpow_natCast, ← zpow_neg]
      congr 1
      omega
    rw [hxx, ← div_eq_mul_inv, div_lt_iff₀ hDq] at h
    have hNat : p.1 < 101 * 2 ^ (-p.2).toNat := by exact_mod_cast h
    have hdiv : p.1 / 2 ^ (-p.2).toNat < 101 := (Nat.div_lt_iff_lt_mul hD).2 hNat
    omega

/-- The binary64 percent stays at most `100` while `i` indexes a
member: the two roundings inflate the exact ratio by less than
`(1 + 2⁻⁵³)²`, so the double is below `101` and truncates to at most
`100`. -/
theorem pyPercent_le_100 (i total : Nat) (h : i < total) :
    pyPercent i total ≤ 100 := by
  unfold pyPercent
  apply truncDyadic_le_100
  have hx := fl53pair_le (i+1) total (by omega) (by omega)
  have hy := mul100fl_le (fl53pair (i+1) total)
  have ht0 : (0:ℚ) < (total : ℚ) := by exact_mod_cast (by omega : 0 < total)
  have hr : ((i+1 : Nat) : ℚ) / (total : ℚ) ≤ 1 := by
    rw [div_le_one ht0]
    exact_mod_cast (by omega : i + 1 ≤ total)
  have hup : (0:ℚ) ≤ 1 + 2 ^ (-53:Int) := by positivity
  have hx1 : dval (fl53pair (i+1) total) ≤ 1 + 2 ^ (-53:Int) := by
    refine le_trans hx ?_
    have := mul_le_mul_of_nonneg_right hr hup
    push_cast at this ⊢
    linarith
  have hfin : dval (mul100fl (fl53pair (i+1) total))
      ≤ (1 + 2 ^ (-53:Int)) * 100 * (1 + 2 ^ (-53:Int)) := by
    refine le_trans hy ?_
    have h1 : dval (fl53pair (i+1) total) * 100 ≤ (1 + 2 ^ (-53:Int)) * 100 :=
      mul_le_mul_of_nonneg_right hx1 (by norm_num)
    exact mul_le_mul_of_nonneg_right h1 hup
  refine lt_of_le_of_lt hfin ?_
  have hval : (2:ℚ) ^ (-53:Int) = ((2:ℚ) ^ (53:Nat))⁻¹ := by
    rw [← zpow_natCast, ← zpow_neg]
    norm_num
  rw [hval]
  norm_num

/-- The binary64 model reproduces CPython's drop below the exact floor at
reachable inputs: after member 29 of 100 the program emits 28 although
`⌊100·29/100⌋ = 29`. -/
theorem pyPercent_below_exact_floor :
    pyPercent 28 100 = 28 ∧ (100 * (28 + 1)) / 100 = 29 := by decide

/-- C7 amended: when every member extracts successfully, the trace is the
initial progress event, then — after each member `i` — a progress event
whose percent is `int(((i+1)/totalCount)*100)` evaluated in binary64
floating point (truncation toward zero of the double product, not
`round(...)`), an integer in `[0, 100]`, with a status text naming the
member, and finally the closing progress and finished events. -/
theorem run_progress_binary64_percent (zip_path : Str) (members : List Str)
    (walk : List WalkFile) (emsg : Str) :
    run_events zip_path members walk true none emsg
      = Event.progress 0 ("Iniciando extração...".data)
          :: ((members.enumFrom 0).map fun p =>
                Event.progress (pyPercent p.1 members.length)
                  ("Extraindo: ".data ++ p.2))
            ++ [Event.progress 100 ("Organizando arquivos...".data),
                Event.finished (organize_files zip_path walk)] ∧
    ∀ i, i < members.length → pyPercent i members.length ≤ 100 := by
  constructor
  · unfold run_events
    rw [if_pos rfl]
    rw [extractLoop_none]
    rfl
  · exact fun i hi => pyPercent_le_100 i members.length hi

/-- Witness for C7 (amended) at a concrete input: the full three-member
trace, and the percent after the second member is at most 100. -/
theorem run_progress_binary64_percent_witness :
    run_events ("z.zip".data) ["a".data, "b".data, "c".data] [] true none
        ("x".data)
      = Event.progress 0 ("Iniciando extração...".data)
          :: (((["a".data, "b".data, "c".data] : List Str).enumFrom 0).map
                fun p =>
                  Event.progress
                    (pyPercent p.1 (["a".data, "b".data, "c".data] : List Str).length)
                    ("Extraindo: ".data ++ p.2))
            ++ [Event.progress 100 ("Organizando arquivos...".data),
                Event.finished (organize_files ("z.zip".data) [])] ∧
    pyPercent 1 (["a".data, "b".data, "c".data] : List Str).length ≤ 100 :=
  ⟨(run_progress_binary64_percent ("z.zip".data) ["a".data, "b".data, "c".data]
      [] ("x".data)).1,
   (run_progress_binary64_percent ("z.zip".data) ["a".data, "b".data, "c".data]
      [] ("x".data)).2 1 (by decide)⟩

/-- C7 counterexample: with three members the event after the second
member carries percent `66` (`int((2/3)*100)` in binary64), while the
claimed `round(100·2/3)` is `67`. -/
theorem run_progress_not_round :
    (run_events ("z.zip".data) ["a".data, "b".data, "c".data] [] true none
        ("x".data)).get? 2
      = some (Event.progress 66 ("Extraindo: ".data ++ "b".data)) ∧
    roundPercent 2 3 = 67 ∧ (66 : Nat) ≠ 67 := by decide

/-! ### The finger/side label -/

theorem side_map_ne_nil (c : Char) : side_map c ≠ [] := by
  unfold side_map
  split <;> decide

/-- One loop iteration keeps each accumulator component unless the token
contributes a value for that category. -/
theorem dedoStep_eq (acc : Str × Str) (part : Str) :
    dedoStep acc part
      = ((fingerOfToken part).getD acc.1, (sideOfToken part).getD acc.2) := by
  unfold dedoStep fingerOfToken sideOfToken
  by_cases hde : part = "d".data ∨ part = "e".data
  · rcases hde with rfl | rfl <;> cases hf : fingerLookup _ <;> simp [hf]
  · simp only [hde, if_false]
    rcases part with _ | ⟨c0, _ | ⟨c1, _ | ⟨c2, rest⟩⟩⟩ <;>
      cases hf : fingerLookup _ <;> simp [hf] <;> split <;> simp

/-- The loop of `extract_dedo_info` computes, for each category, the value
of the last matching token (or keeps the initial accumulator). -/
theorem lastHit_cons (g : Str → Option Str) (p : Str) (ps : List Str) :
    lastHit g (p :: ps)
      = match lastHit g ps with
        | some v => some v
        | none => g p := rfl

theorem foldl_dedoStep (parts : List Str) (acc : Str × Str) :
    parts.foldl dedoStep acc
      = ((lastHit fingerOfToken parts).getD acc.1,
         (lastHit sideOfToken parts).getD acc.2) := by
  induction parts generalizing acc with
  | nil => simp [lastHit]
  | cons p ps ih =>
    rw [List.foldl_cons, ih, dedoStep_eq, lastHit_cons, lastHit_cons]
    cases hf : lastHit fingerOfToken ps <;> cases hs : lastHit sideOfToken ps <;>
      cases hfp : fingerOfToken p <;> cases hsp : sideOfToken p <;>
        simp [hf, hs, hfp, hsp]

theorem lastHit_mem (g : Str → Option Str) (ps : List Str) (v : Str)
    (h : lastHit g ps = some v) : ∃ p ∈ ps, g p = some v := by
  induction ps with
  | nil => simp [lastHit] at h
  | cons p ps ih =>
    unfold lastHit at h
    cases hl : lastHit g ps with
    | some w =>
      rw [hl] at h
      obtain ⟨q, hq, hgv⟩ := ih (h ▸ hl)
      exact ⟨q, List.mem_cons_of_mem _ hq, hgv⟩
    | none =>
      rw [hl] at h
      exact ⟨p, List.mem_cons_self _ _, h⟩

theorem fingerOfToken_ne_nil (part v : Str) (h : fingerOfToken part = some v) :
    v ≠ [] := by
  unfold fingerOfToken fingerLookup at h
  cases hf : finger_map.find? (fun kv => decide (kv.1 = part)) with
  | none => simp [hf] at h
  | some kv =>
    have hv : kv.2 = v := by simpa [hf] using h
    have hmem := List.mem_of_find?_eq_some hf
    subst hv
    simp only [finger_map, List.mem_cons, List.not_mem_nil, or_false] at hmem
    rcases hmem with rfl | rfl | rfl | rfl | rfl <;> decide

theorem sideOfToken_ne_nil (part v : Str) (h : sideOfToken part = some v) :
    v ≠ [] := by
  unfold sideOfToken at h
  by_cases hde : part = "d".data ∨ part = "e".data
  · rw [if_pos hde] at h
    simp only [Option.some.injEq] at h
    exact h ▸ side_map_ne_nil _
  · rw [if_neg hde] at h
    rcases part with _ | ⟨c0, _ | ⟨c1, _ | ⟨c2, rest⟩⟩⟩ <;> simp at h
    rcases h with ⟨-, hv⟩
    exact hv ▸ side_map_ne_nil _

/-- C6 amended: the label scan is left-to-right with no early exit, so for
each category the last matching token wins; the result composes
`"finger - side"` when both categories matched, is the finger alone when
only the finger matched, and is `"Desconhecido"` otherwise — in
particular a side found without a finger is discarded. -/
theorem dedo_last_match_composition (filename : Str) :
    extract_dedo_info filename
      = (match lastHit fingerOfToken (splitOnChar '_' (pyLower filename)),
               lastHit sideOfToken (splitOnChar '_' (pyLower filename)) with
         | some f, some s => f ++ " - ".data ++ s
         | some f, none => f
         | none, _ => "Desconhecido".data) := by
  simp only [extract_dedo_info]
  rw [foldl_dedoStep]
  cases hf : lastHit fingerOfToken (splitOnChar '_' (pyLower filename)) with
  | none =>
    cases hs : lastHit sideOfToken (splitOnChar '_' (pyLower filename)) <;> simp
  | some f =>
    obtain ⟨p, hp, hgp⟩ := lastHit_mem _ _ _ hf
    have hfne : f ≠ [] := fingerOfToken_ne_nil p f hgp
    cases hs : lastHit sideOfToken (splitOnChar '_' (pyLower filename)) with
    | none => simp [hfne]
    | some s =>
      obtain ⟨q, hq, hgq⟩ := lastHit_mem _ _ _ hs
      have hsne : s ≠ [] := sideOfToken_ne_nil q s hgq
      simp [hfne, hsne]

/-- C6 counterexample: for `2024_05_1_d` (the specification's own Example
1) a side is found (`d` → Direita) and no finger is found, yet the result
is `"Desconhecido"` — not the present side, contradicting "else whichever
one is present". -/
theorem dedo_side_only_desconhecido :
    extract_dedo_info ("2024_05_1_d".data) = "Desconhecido".data ∧
    lastHit sideOfToken (splitOnChar '_' (pyLower ("2024_05_1_d".data)))
      = some ("Direita".data) ∧
    lastHit fingerOfToken (splitOnChar '_' (pyLower ("2024_05_1_d".data)))
      = none ∧
    "Desconhecido".data ≠ "Direita".data := by decide

/-! ### The catalog sort order -/

theorem strLt_irrefl (a : Str) : strLt a a = false := by
  induction a with
  | nil => rfl
  | cons c cs ih => simp [strLt, lt_irrefl, ih]

theorem strLt_trans (a b c : Str) (h1 : strLt a b = true) (h2 : strLt b c = true) :
    strLt a c = true := by
  induction a generalizing b c with
  | nil =>
    cases b with
    | nil => simp [strLt] at h1
    | cons y ys =>
      cases c with
      | nil => simp [strLt] at h2
      | cons z zs => rfl
  | cons x xs ih =>
    cases b with
    | nil => simp [strLt] at h1
    | cons y ys =>
      cases c with
      | nil => simp [strLt] at h2
      | cons z zs =>
        simp only [strLt] at h1 h2 ⊢
        by_cases hxy : x < y
        · by_cases hyz : y < z
          · simp [lt_trans hxy hyz]
          · rw [if_neg hyz] at h2
            by_cases hzy : z < y
            · simp [hzy] at h2
            · have hyzeq : y = z := le_antisymm (not_lt.1 hzy) (not_lt.1 hyz)
              subst hyzeq
              simp [hxy]
        · rw [if_neg hxy] at h1
          by_cases hyx : y < x
          · simp [hyx] at h1
          · have hxyeq : x = y := le_antisymm (not_lt.1 hyx) (not_lt.1 hxy)
            subst hxyeq
            by_cases hyz : x < z
            · simp [hyz]
            · rw [if_neg hyz] at h2 ⊢
              by_cases hzy : z < x
              · simp [hzy] at h2
              · rw [if_neg hzy] at h2 ⊢
                exact ih ys zs (by simpa [hyx] using h1) h2

theorem strLt_connex (a b : Str) (h : a ≠ b) :
    (strLt a b || strLt b a) = true := by
  induction a generalizing b with
  | nil =>
    cases b with
    | nil => exact absurd rfl h
    | cons y ys => rfl
  | cons x xs ih =>
    cases b with
    | nil => rfl
    | cons y ys =>
      simp only [strLt]
      by_cases hxy : x < y
      · simp [hxy]
      · by_cases hyx : y < x
        · simp [hyx]
        · have hxyeq : x = y := le_antisymm (not_lt.1 hyx) (not_lt.1 hxy)
          subst hxyeq
          have htl : xs ≠ ys := fun heq => h (by rw [heq])
          simpa [lt_irrefl] using ih ys htl

theorem strLe_total (a b : Str) : (strLe a b || strLe b a) = true := by
  unfold strLe
  by_cases h : a = b
  · simp [h]
  · simpa [h, Ne.symm h, Bool.or_assoc, Bool.or_left_comm] using strLt_connex a b h

theorem strLe_trans (a b c : Str) (h1 : strLe a b = true) (h2 : strLe b c = true) :
    strLe a c = true := by
  unfold strLe at h1 h2 ⊢
  rcases Bool.or_eq_true_iff.1 h1 with hab | hab
  · rcases Bool.or_eq_true_iff.1 h2 with hbc | hbc
    · simp [strLt_trans a b c hab hbc]
    · have : b = c := by simpa using hbc
      subst this
      simp [hab]
  · have : a = b := by simpa using hab
    subst this
    exact h2

/-- Totality of one lexicographic level. -/
theorem lex_or_total (a b : Str) (r s : Bool) (hrs : (r || s) = true) :
    ((strLt a b || (decide (a = b) && r))
      || (strLt b a || (decide (b = a) && s))) = true := by
  by_cases h : a = b
  · subst h
    simpa [strLt_irrefl] using hrs
  · have hc := strLt_connex a b h
    simpa [h, Ne.symm h, Bool.or_assoc, Bool.or_left_comm] using hc

/-- Transitivity of one lexicographic level. -/
theorem lex_or_trans (a b c : Str) (r s t : Bool)
    (hrt : r = true → s = true → t = true)
    (h1 : (strLt a b || (decide (a = b) && r)) = true)
    (h2 : (strLt b c || (decide (b = c) && s)) = true) :
    (strLt a c || (decide (a = c) && t)) = true := by
  rcases Bool.or_eq_true_iff.1 h1 with hab | hab
  · rcases Bool.or_eq_true_iff.1 h2 with hbc | hbc
    · simp [strLt_trans a b c hab hbc]
    · rw [Bool.and_eq_true] at hbc
      have hbceq : b = c := by simpa using hbc.1
      subst hbceq
      simp [hab]
  · rw [Bool.and_eq_true] at hab
    have habeq : a = b := by simpa using hab.1
    have hr : r = true := hab.2
    subst habeq
    rcases Bool.or_eq_true_iff.1 h2 with hbc | hbc
    · simp [hbc]
    · rw [Bool.and_eq_true] at hbc
      have hbceq : a = c := by simpa using hbc.1
      have hs : s = true := hbc.2
      subst hbceq
      simp [hrt hr hs]

theorem pySortKeyLe_total (x y : MediaItem) :
    (pySortKeyLe x y || pySortKeyLe y x) = true := by
  unfold pySortKeyLe
  exact lex_or_total _ _ _ _ (lex_or_total _ _ _ _ (strLe_total _ _))

theorem pySortKeyLe_trans (x y z : MediaItem)
    (h1 : pySortKeyLe x y = true) (h2 : pySortKeyLe y z = true) :
    pySortKeyLe x z = true := by
  unfold pySortKeyLe at h1 h2 ⊢
  exact lex_or_trans _ _ _ _ _ _
    (fun ha hb => lex_or_trans _ _ _ _ _ _ (strLe_trans _ _ _) ha hb) h1 h2

theorem sameKey_le (a b : MediaItem) (h : sameKey a b) : pySortKeyLe a b = true := by
  obtain ⟨h1, h2, h3⟩ := h
  simp [pySortKeyLe, h1, h2, h3, strLe]

/-- `organize_files` is the stable sort of the enumeration-order item
list. -/
theorem organize_files_eq (zip_path : Str) (walk : List WalkFile) :
    organize_files zip_path walk
      = (preSortItems zip_path walk).mergeSort pySortKeyLe := rfl

/-- C3: the catalog builder returns the item sequence sorted ascending by
the `(data, id, filename)` key under ordinary lexical (code-point) string
comparison of each component, as a permutation of the enumeration-order
items, and the sort is stable: two items with equal keys keep their
relative order from the input enumeration. -/
theorem catalog_sorted_stable (zip_path : Str) (walk : List WalkFile) :
    (organize_files zip_path walk).Pairwise (fun a b => pySortKeyLe a b = true) ∧
    (organize_files zip_path walk).Perm (preSortItems zip_path walk) ∧
    ∀ a b : MediaItem, [a, b].Sublist (preSortItems zip_path walk) → sameKey a b →
      [a, b].Sublist (organize_files zip_path walk) := by
  refine ⟨?_, ?_, ?_⟩
  · rw [organize_files_eq]
    exact List.sorted_mergeSort pySortKeyLe_trans
      pySortKeyLe_total (preSortItems zip_path walk)
  · rw [organize_files_eq]
    exact List.mergeSort_perm _ _
  · intro a b hsub hkey
    rw [organize_files_eq]
    exact List.mergeSort_stable_pair pySortKeyLe_trans pySortKeyLe_total
      (sameKey_le a b hkey) hsub

/-- Witness for C3 at a concrete input: two distinct items (different
folders) with equal `(data, id, filename)` keys keep their input order in
the sorted catalog. -/
theorem catalog_sorted_stable_witness :
    [buildItem ("????".data) ("??".data)
        ⟨["u".data, "b".data, "c".data], "f.jpg".data⟩,
     buildItem ("????".data) ("??".data)
        ⟨["v".data, "b".data, "c".data], "f.jpg".data⟩].Sublist
      (organize_files ("x.zip".data)
        [⟨["u".data, "b".data, "c".data], "f.jpg".data⟩,
         ⟨["v".data, "b".data, "c".data], "f.jpg".data⟩]) :=
  (catalog_sorted_stable ("x.zip".data)
    [⟨["u".data, "b".data, "c".data], "f.jpg".data⟩,
     ⟨["v".data, "b".data, "c".data], "f.jpg".data⟩]).2.2
    (buildItem ("????".data) ("??".data)
      ⟨["u".data, "b".data, "c".data], "f.jpg".data⟩)
    (buildItem ("????".data) ("??".data)
      ⟨["v".data, "b".data, "c".data], "f.jpg".data⟩)
    (List.Sublist.refl _) ⟨rfl, rfl, rfl⟩

/-- C4: the catalog holds exactly one item per enumerated file whose
extension, lowercased, is in the supported set — at any folder depth —
and every other file is skipped; a walk with no matching file yields the
empty catalog (no failure is possible: the builder is a total function). -/
theorem catalog_one_item_per_valid_file (zip_path : Str) (walk : List WalkFile) :
    (organize_files zip_path walk).length = (walk.filter keepFile).length ∧
    (organize_files zip_path walk).Perm (preSortItems zip_path walk) ∧
    ((∀ w ∈ walk, keepFile w = false) → organize_files zip_path walk = []) := by
  refine ⟨?_, ?_, ?_⟩
  · rw [organize_files_eq, List.length_mergeSort]
    simp [preSortItems]
  · rw [organize_files_eq]
    exact List.mergeSort_perm _ _
  · intro h
    rw [organize_files_eq]
    have hfil : walk.filter keepFile = [] := List.filter_eq_nil_iff.2 (by simpa using h)
    simp [preSortItems, hfil]

/-- Witness for C4 at a concrete input: a walk holding only a `.txt` file
yields the empty catalog. -/
theorem catalog_one_item_per_valid_file_witness :
    organize_files ("z.zip".data) [⟨[], "a.txt".data⟩] = [] :=
  (catalog_one_item_per_valid_file ("z.zip".data) [⟨[], "a.txt".data⟩]).2.2
    (by decide)

/-- `searchDate` returns the match at the leftmost matching position, and
returns `none` exactly when no position matches. -/
theorem searchDate_first (cs : Str) :
    (∀ r, searchDate cs = some r →
      ∃ i, matchDateAt (cs.drop i) = some r ∧
        ∀ j, j < i → matchDateAt (cs.drop j) = none) ∧
    (searchDate cs = none → ∀ i, matchDateAt (cs.drop i) = none) := by
  induction cs with
  | nil =>
    constructor
    · intro r h
      simp [searchDate] at h
    · intro _ i
      rw [List.drop_nil]
      rfl
  | cons c cs ih =>
    constructor
    · intro r h
      unfold searchDate at h
      cases hm : matchDateAt (c :: cs) with
      | some r0 =>
        rw [hm] at h
        refine ⟨0, ?_, fun j hj => absurd hj (Nat.not_lt_zero j)⟩
        rw [List.drop_zero, hm]
        exact h
      | none =>
        rw [hm] at h
        obtain ⟨i, hi, hj⟩ := ih.1 r h
        refine ⟨i + 1, by simpa using hi, ?_⟩
        intro j hj'
        cases j with
        | zero => simpa using hm
        | succ j' => simpa using hj j' (Nat.lt_of_succ_lt_succ hj')
    · intro h i
      unfold searchDate at h
      cases hm : matchDateAt (c :: cs) with
      | some r0 => rw [hm] at h; exact absurd h (by simp)
      | none =>
        rw [hm] at h
        cases i with
        | zero => simpa using hm
        | succ i' => simpa using ih.2 h i'

/-- C5: every catalog item's `data` is `"DD/MM/YYYY"` where `(YYYY, MM)` is
the leftmost match of "4 digits, space or underscore, 2 digits" in the
archive base name (defaulting to `("????", "??")` when no position
matches), `DD` is the third-from-last relative path segment when there are
at least 3 segments and `"??"` otherwise; its `id` is the second-from-last
segment when there are at least 2 and `"Unknown"` otherwise. -/
theorem catalog_metadata_fields (zip_path : Str) (walk : List WalkFile)
    (item : MediaItem) (h : item ∈ organize_files zip_path walk) :
    ∃ am : Str × Str,
      ((∃ i, matchDateAt ((basename zip_path).drop i) = some am ∧
          ∀ j, j < i → matchDateAt ((basename zip_path).drop j) = none) ∨
        (am = ("????".data, "??".data) ∧
          ∀ i, matchDateAt ((basename zip_path).drop i) = none)) ∧
      item.data
        = (if 3 ≤ item.file_path.length
            then item.file_path.getD (item.file_path.length - 3) []
            else "??".data) ++ "/".data ++ am.2 ++ "/".data ++ am.1 ∧
      item.id
        = (if 2 ≤ item.file_path.length
            then item.file_path.getD (item.file_path.length - 2) []
            else "Unknown".data) := by
  rw [organize_files_eq] at h
  have h' : item ∈ preSortItems zip_path walk := (List.mergeSort_perm _ _).subset h
  simp only [preSortItems] at h'
  obtain ⟨w, hw, hbuild⟩ := List.mem_map.1 h'
  refine ⟨(searchDate (basename zip_path)).getD ("????".data, "??".data),
    ?_, ?_, ?_⟩
  · cases hs : searchDate (basename zip_path) with
    | some r => exact Or.inl (by simpa [hs] using (searchDate_first _).1 r hs)
    | none => exact Or.inr ⟨by simp [hs], (searchDate_first _).2 hs⟩
  · rw [← hbuild]
    rfl
  · rw [← hbuild]
    rfl

/-- Witness for C5 at the specification's Example 1: archive
`Coleta_2024 05.zip`, file `15/SUBJ01/2024_05_1_d.jpg`. -/
theorem catalog_metadata_fields_witness :
    ∃ am : Str × Str,
      ((∃ i, matchDateAt ((basename ("Coleta_2024 05.zip".data)).drop i) = some am ∧
          ∀ j, j < i →
            matchDateAt ((basename ("Coleta_2024 05.zip".data)).drop j) = none) ∨
        (am = ("????".data, "??".data) ∧
          ∀ i, matchDateAt ((basename ("Coleta_2024 05.zip".data)).drop i) = none)) ∧
      (buildItem ("2024".data) ("05".data)
          ⟨["15".data, "SUBJ01".data], "2024_05_1_d.jpg".data⟩).data
        = (if 3 ≤ (buildItem ("2024".data) ("05".data)
                ⟨["15".data, "SUBJ01".data], "2024_05_1_d.jpg".data⟩).file_path.length
            then (buildItem ("2024".data) ("05".data)
                ⟨["15".data, "SUBJ01".data], "2024_05_1_d.jpg".data⟩).file_path.getD
              ((buildItem ("2024".data) ("05".data)
                ⟨["15".data, "SUBJ01".data],
                  "2024_05_1_d.jpg".data⟩).file_path.length - 3) []
            else "??".data) ++ "/".data ++ am.2 ++ "/".data ++ am.1 ∧
      (buildItem ("2024".data) ("05".data)
          ⟨["15".data, "SUBJ01".data], "2024_05_1_d.jpg".data⟩).id
        = (if 2 ≤ (buildItem ("2024".data) ("05".data)
                ⟨["15".data, "SUBJ01".data], "2024_05_1_d.jpg".data⟩).file_path.length
            then (buildItem ("2024".data) ("05".data)
                ⟨["15".data, "SUBJ01".data], "2024_05_1_d.jpg".data⟩).file_path.getD
              ((buildItem ("2024".data) ("05".data)
                ⟨["15".data, "SUBJ01".data],
                  "2024_05_1_d.jpg".data⟩).file_path.length - 2) []
            else "Unknown".data) :=
  catalog_metadata_fields ("Coleta_2024 05.zip".data)
    [⟨["15".data, "SUBJ01".data], "2024_05_1_d.jpg".data⟩]
    (buildItem ("2024".data) ("05".data)
      ⟨["15".data, "SUBJ01".data], "2024_05_1_d.jpg".data⟩)
    (by
      rw [organize_files_eq]
      exact (List.mergeSort_perm _ _).mem_iff.2 (by decide))
